import Mathlib

/-!
Verification of the harmonic-depths core: the prime-ratio mathematics and
voice manager of src/harmonic-engine.js, and the spatial harmonic model of
src/harmonic-space.js, embedded shallowly.

Numeric conventions: JavaScript numbers are modelled as exact rationals
(every JS double denotes a rational), except where the source computes
square roots or trigonometric functions, which are modelled over the reals.
Mutable object state becomes explicit state passing; object identity of
audio nodes is modelled by serial numbers; `setTimeout` callbacks become an
explicit queue of pending decommissions that a separate step fires.
-/

namespace HarmonicDepths

/-! ## Prime ratio math (src/harmonic-engine.js top level) -/

/-- The prime table of src/harmonic-engine.js (`PRIMES`). -/
def PRIMES : List ℕ :=
  [2, 3, 5, 7, 11, 13, 17, 19, 23, 29, 31, 37, 41, 43, 47, 53, 59, 61, 67,
   71, 73, 79, 83, 89, 97]

/-- `getPrimeRatio` of src/harmonic-engine.js: repeatedly halve while the
value is at least 4 (`while (ratio >= 4) ratio /= 2`). -/
def getPrimeRatio (prime : ℚ) : ℚ :=
  go prime
where
  /-- The while loop, on the mutable local `ratio`. -/
  go (ratio : ℚ) : ℚ :=
    if h : 4 ≤ ratio then go (ratio / 2) else ratio
  termination_by (⌈ratio⌉).toNat
  decreasing_by
    have hq4 : (4 : ℤ) ≤ ⌈ratio⌉ := by
      have h4 := Int.ceil_le_ceil (α := ℚ) (show (4 : ℚ) ≤ ratio from h)
      simpa using h4
    have h2 : ratio / 2 ≤ ((⌈ratio⌉ - 2 : ℤ) : ℚ) := by
      have hle : ratio ≤ (⌈ratio⌉ : ℚ) := Int.le_ceil ratio
      push_cast
      nlinarith [hle]
    have h3 : ⌈ratio / 2⌉ ≤ ⌈ratio⌉ - 2 := Int.ceil_le.mpr h2
    omega

/-- One element pushed by `getPrimeHarmonics` of src/harmonic-engine.js:
`{ratio, frequency, foldedRatio, multiplier}`. -/
structure PrimeHarmonicEntry where
  ratio : ℚ
  frequency : ℚ
  foldedRatio : ℚ
  multiplier : ℚ
  deriving Repr, DecidableEq

/-- The `while (true)` loop of `getPrimeHarmonics`, fuel-indexed: `none`
means the loop has not reached its `break` within `fuel` iterations.
Each iteration computes `harmonic = prime * multiplier` and
`frequency = fundamental * harmonic`, breaks when `frequency > maxFreq`,
otherwise pushes an entry and doubles the multiplier. -/
def getPrimeHarmonicsAux (prime fundamental maxFreq : ℚ) :
    ℕ → ℚ → Option (List PrimeHarmonicEntry)
  | 0, _ => none
  | fuel + 1, multiplier =>
    let harmonic := prime * multiplier
    let frequency := fundamental * harmonic
    if maxFreq < frequency then some []
    else
      (getPrimeHarmonicsAux prime fundamental maxFreq fuel (multiplier * 2)).map
        (fun rest => ⟨harmonic, frequency, getPrimeRatio harmonic, multiplier⟩ :: rest)

/-- `getPrimeHarmonics` of src/harmonic-engine.js: run the loop from
`multiplier = 1`. The source's loop is unbounded; termination is the
statement that some fuel returns `some`. -/
def getPrimeHarmonics (prime fundamental maxFreq : ℚ) (fuel : ℕ) :
    Option (List PrimeHarmonicEntry) :=
  getPrimeHarmonicsAux prime fundamental maxFreq fuel 1

/-! ## Voice manager (class HarmonicEngine of src/harmonic-engine.js)

Only the operations the claims touch are modelled: `createVoice`,
`setVoiceAmplitude`, `releaseVoice`, and the firing of a `releaseVoice`
timer. Web Audio nodes are modelled by their observable state plus a serial
number standing for object identity. -/

/-- An oscillator node: identity and its frequency parameter. -/
structure OscNode where
  serial : ℕ
  frequency : ℚ
  deriving Repr, DecidableEq

/-- A gain node: identity, current value, and the last scheduled
exponential-ramp target (the source cancels earlier automation before each
new ramp, so one pending target suffices). -/
structure GainNode where
  serial : ℕ
  value : ℚ
  rampTarget : ℚ
  deriving Repr, DecidableEq

/-- A voice of the engine: `{oscillator, gain, targetGain, ratio}`. -/
structure Voice where
  oscillator : OscNode
  gain : GainNode
  targetGain : ℚ
  ratio : ℚ
  deriving Repr, DecidableEq

/-- A `setTimeout` scheduled by `releaseVoice`: the callback captured the
voice object (`voice`) and the id, and fires after `fadeTime * 1000 + 100`
milliseconds. -/
structure Decommission where
  id : String
  voice : Voice
  delayMs : ℚ
  deriving Repr, DecidableEq

/-- The engine state: the `voices` map (association list, first match wins,
keys unique by construction), the fundamental, the next fresh node serial,
the serials of oscillators that have been stopped and disconnected, and the
pending `releaseVoice` timers in the order they were scheduled. -/
structure HarmonicEngine where
  voices : List (String × Voice)
  fundamental : ℚ
  masterVolume : ℚ
  nextNodeSerial : ℕ
  stoppedOscillators : List ℕ
  pendingDecommissions : List Decommission
  deriving Repr, DecidableEq

/-- The constructor's state: no voices, fundamental 110, master volume 0.4. -/
def HarmonicEngine.initial : HarmonicEngine :=
  { voices := [], fundamental := 110, masterVolume := 2/5, nextNodeSerial := 0,
    stoppedOscillators := [], pendingDecommissions := [] }

/-- Replace the first entry with the given key (`Map.set` on an existing key). -/
def updateVoiceList (id : String) (v : Voice) :
    List (String × Voice) → List (String × Voice)
  | [] => []
  | (k, w) :: rest =>
    if k = id then (k, v) :: rest else (k, w) :: updateVoiceList id v rest

/-- `createVoice(id, ratio)`: if a voice for `id` exists return it, else
allocate an oscillator at `fundamental * ratio` and a gain at 0, start
them, and store the voice under `id`. Returns the voice as the source does. -/
def HarmonicEngine.createVoice (e : HarmonicEngine) (id : String) (ratio : ℚ) :
    Voice × HarmonicEngine :=
  match e.voices.lookup id with
  | some voice => (voice, e)
  | none =>
    let osc : OscNode := ⟨e.nextNodeSerial, e.fundamental * ratio⟩
    let gain : GainNode := ⟨e.nextNodeSerial + 1, 0, 0⟩
    let voice : Voice := ⟨osc, gain, 0, ratio⟩
    (voice,
      { e with
        voices := (id, voice) :: e.voices
        nextNodeSerial := e.nextNodeSerial + 2 })

/-- `setVoiceAmplitude(id, amplitude, time)`: no-op when the id is absent;
otherwise set `targetGain` and schedule an exponential ramp to
`max(amplitude, 0.0001)` (earlier automation is cancelled). -/
def HarmonicEngine.setVoiceAmplitude (e : HarmonicEngine) (id : String)
    (amplitude : ℚ) : HarmonicEngine :=
  match e.voices.lookup id with
  | none => e
  | some voice =>
    let voice' : Voice :=
      { voice with
        targetGain := amplitude
        gain := { voice.gain with rampTarget := max amplitude (1/10000) } }
    { e with voices := updateVoiceList id voice' e.voices }

/-- `releaseVoice(id, fadeTime)`: no-op when the id is absent; otherwise
ramp the gain toward 0.0001 and schedule a decommission timer for
`fadeTime * 1000 + 100` milliseconds that will stop the captured voice's
oscillator and delete `id` from the map. -/
def HarmonicEngine.releaseVoice (e : HarmonicEngine) (id : String)
    (fadeTime : ℚ) : HarmonicEngine :=
  match e.voices.lookup id with
  | none => e
  | some voice =>
    let voice' : Voice := { voice with gain := { voice.gain with rampTarget := 1/10000 } }
    { e with
      voices := updateVoiceList id voice' e.voices
      pendingDecommissions :=
        e.pendingDecommissions ++ [⟨id, voice', fadeTime * 1000 + 100⟩] }

/-- The event loop fires the oldest pending decommission: the callback
stops and disconnects the captured voice's oscillator and deletes the id
from the map, with no identity re-check against what the map holds now. -/
def HarmonicEngine.fireNextDecommission (e : HarmonicEngine) : HarmonicEngine :=
  match e.pendingDecommissions with
  | [] => e
  | d :: rest =>
    { e with
      pendingDecommissions := rest
      stoppedOscillators := e.stoppedOscillators ++ [d.voice.oscillator.serial]
      voices := e.voices.eraseP (fun kv => kv.1 == d.id) }

/-! ## Spatial harmonic model (class HarmonicSpace of src/harmonic-space.js)

Positions come from cosine/sine of golden-angle spirals, so they are
modelled over the reals; the depth machinery and the visibility thresholds
are rational. `Math.random()` is modelled by an ambient stream of draws
`rand : ℕ → ℝ` consumed in source order (three draws per harmonic: phase,
wanderAngle, wanderSpeed), with `randIdx` the next unconsumed index. -/

/-- A color of the `PRIME_COLORS` table: `{h, s, l}`. -/
structure HSLColor where
  hue : ℚ
  sat : ℚ
  light : ℚ
  deriving Repr, DecidableEq

/-- The `PRIME_COLORS` table of src/harmonic-engine.js, with its default. -/
def PRIME_COLORS (prime : ℕ) : HSLColor :=
  match prime with
  | 2 => ⟨220, 30, 60⟩
  | 3 => ⟨200, 40, 55⟩
  | 5 => ⟨45, 50, 55⟩
  | 7 => ⟨280, 45, 50⟩
  | 11 => ⟨320, 50, 50⟩
  | 13 => ⟨160, 45, 45⟩
  | 17 => ⟨30, 55, 50⟩
  | 19 => ⟨350, 50, 55⟩
  | 23 => ⟨180, 40, 45⟩
  | 29 => ⟨260, 45, 50⟩
  | 31 => ⟨100, 40, 45⟩
  | 37 => ⟨15, 50, 50⟩
  | 41 => ⟨240, 35, 55⟩
  | 43 => ⟨140, 40, 45⟩
  | 47 => ⟨300, 40, 50⟩
  | _ => ⟨200, 30, 50⟩

/-- A harmonic entity of src/harmonic-space.js, with the fields in source
order. `visibilityDepth` is rational by construction. -/
structure Harmonic where
  id : String
  prime : ℕ
  ratio : ℚ
  x : ℝ
  y : ℝ
  baseX : ℝ
  baseY : ℝ
  size : ℝ
  baseSize : ℝ
  color : HSLColor
  amplitude : ℝ
  glow : ℝ
  phase : ℝ
  breathRate : ℝ
  isExotic : Bool
  visibilityDepth : ℚ
  wanderAngle : ℝ
  wanderSpeed : ℝ

/-- The golden ratio `PHI = (1 + sqrt 5) / 2` of src/harmonic-space.js. -/
noncomputable def PHI : ℝ := (1 + Real.sqrt 5) / 2

/-- The body of the `generateHarmonics` loop of src/harmonic-space.js for
index `i`, with the center at `(width / 2, height / 2)` as both call sites
guarantee, and `base` the index of the first unconsumed random draw. -/
noncomputable def mkHarmonic (width height : ℝ) (rand : ℕ → ℝ) (base i : ℕ) :
    Harmonic :=
  let prime := PRIMES.getD i 0
  let minDim := min width height
  let baseRadius := minDim * 0.35
  let goldenAngle := Real.pi * 2 / (PHI * PHI)
  let angle := i * goldenAngle + prime * 0.1
  let normalizedIndex := (i : ℝ) / ((PRIMES.length : ℝ) - 1)
  let distanceBase := 0.25 + normalizedIndex * 0.5
  let distanceVariation := Real.sin (prime * 0.7) * 0.1
  let distance := baseRadius * (distanceBase + distanceVariation)
  let x := width / 2 + Real.cos angle * distance
  let y := height / 2 + Real.sin angle * distance
  let baseSize : ℝ := 30 - i * 0.8
  let size := max 12 baseSize
  { id := "prime_" ++ toString prime
    prime := prime
    ratio := getPrimeRatio prime
    x := x
    y := y
    baseX := x
    baseY := y
    size := size
    baseSize := size
    color := PRIME_COLORS prime
    amplitude := 0
    glow := 0
    phase := rand (base + 3 * i) * (Real.pi * 2)
    breathRate := 0.5 + prime * 0.02
    isExotic := decide (7 ≤ prime)
    visibilityDepth := max 0 (((i : ℚ) - 4) / 15)
    wanderAngle := rand (base + 3 * i + 1) * (Real.pi * 2)
    wanderSpeed := 0.1 + rand (base + 3 * i + 2) * 0.2 }

/-- `generateHarmonics` of src/harmonic-space.js: one harmonic per index of
`PRIMES`, replacing the whole collection. -/
noncomputable def generateHarmonics (width height : ℝ) (rand : ℕ → ℝ)
    (base : ℕ) : List Harmonic :=
  (List.range PRIMES.length).map (mkHarmonic width height rand base)

/-- The spatial model's state. -/
structure HarmonicSpace where
  width : ℝ
  height : ℝ
  center : ℝ × ℝ
  depth : ℚ
  time : ℝ
  harmonics : List Harmonic
  rand : ℕ → ℝ
  randIdx : ℕ

/-- The `HarmonicSpace` constructor: depth 0, harmonics generated once. -/
noncomputable def HarmonicSpace.init (width height : ℝ) (rand : ℕ → ℝ) :
    HarmonicSpace :=
  { width := width
    height := height
    center := (width / 2, height / 2)
    depth := 0
    time := 0
    harmonics := generateHarmonics width height rand 0
    rand := rand
    randIdx := 3 * PRIMES.length }

/-- `resize(width, height)`: update dimensions and center, shift every
harmonic by the center delta, then regenerate the whole set (the source's
final `generateHarmonics()` call overwrites the shifted positions). -/
noncomputable def HarmonicSpace.resize (s : HarmonicSpace) (width height : ℝ) :
    HarmonicSpace :=
  let newCenter : ℝ × ℝ := (width / 2, height / 2)
  let dx := newCenter.1 - s.center.1
  let dy := newCenter.2 - s.center.2
  let shifted := s.harmonics.map (fun h =>
    { h with x := h.x + dx, y := h.y + dy, baseX := h.baseX + dx, baseY := h.baseY + dy })
  { s with
    width := width
    height := height
    center := newCenter
    harmonics := (fun _ => generateHarmonics width height s.rand s.randIdx) shifted
    randIdx := s.randIdx + 3 * PRIMES.length }

/-- `setDepth(depth)`: clamp to [0, 1]. -/
def HarmonicSpace.setDepth (s : HarmonicSpace) (depth : ℚ) : HarmonicSpace :=
  { s with depth := max 0 (min 1 depth) }

/-- `getVisibleHarmonics()`: the harmonics with
`visibilityDepth <= depth + 0.3`. -/
def HarmonicSpace.getVisibleHarmonics (s : HarmonicSpace) : List Harmonic :=
  s.harmonics.filter (fun h => decide (h.visibilityDepth ≤ s.depth + 3/10))

/-- One element of the `getHarmonicsNear` result:
`{harmonic, distance, influence}`. -/
structure NearHarmonic where
  harmonic : Harmonic
  distance : ℝ
  influence : ℝ

open Classical in
/-- `getHarmonicsNear(x, y, radius)`: over the visible harmonics, keep
those with Euclidean distance below `radius + size`, with
`influence = max(0, 1 - distance / (radius + size))`, sorted by distance. -/
noncomputable def HarmonicSpace.getHarmonicsNear (s : HarmonicSpace)
    (x y radius : ℝ) : List NearHarmonic :=
  let visible := s.getVisibleHarmonics
  let near := visible.filterMap (fun h =>
    let dx := h.x - x
    let dy := h.y - y
    let distance := Real.sqrt (dx * dx + dy * dy)
    if distance < radius + h.size then
      some ⟨h, distance, max 0 (1 - distance / (radius + h.size))⟩
    else none)
  near.mergeSort (fun a b => decide (a.distance ≤ b.distance))

/-- The body of `setHarmonicAmplitude`: `find` the first harmonic with the
id and assign its `amplitude` field; nothing happens when none matches. -/
def setAmplitudeInList (id : String) (amplitude : ℝ) :
    List Harmonic → List Harmonic
  | [] => []
  | h :: rest =>
    if h.id = id then { h with amplitude := amplitude } :: rest
    else h :: setAmplitudeInList id amplitude rest

/-- `setHarmonicAmplitude(id, amplitude)` of src/harmonic-space.js. -/
def HarmonicSpace.setHarmonicAmplitude (s : HarmonicSpace) (id : String)
    (amplitude : ℝ) : HarmonicSpace :=
  { s with harmonics := setAmplitudeInList id amplitude s.harmonics }

/-- `getHarmonic(id)`: the first harmonic with the id. -/
def HarmonicSpace.getHarmonic (s : HarmonicSpace) (id : String) :
    Option Harmonic :=
  s.harmonics.find? (fun h => h.id == id)

/-- The per-harmonic target amplitude computed by
`updateHarmonicsFromCursor` of src/harmonic-engine.js (main application):
`min(0.8, influence * baseIntensity * (1 / sqrt(prime / 2)))` with
`baseIntensity` 0.6 when the mouse is down and 0.25 otherwise. -/
noncomputable def cursorAmplitude (influence : ℝ) (isMouseDown : Bool)
    (prime : ℕ) : ℝ :=
  let baseIntensity : ℝ := if isMouseDown then 0.6 else 0.25
  min 0.8 (influence * baseIntensity * (1 / Real.sqrt ((prime : ℝ) / 2)))

/-- A concrete spatial state with no harmonics, for instantiating
universally quantified statements at an input with no matching id. -/
def emptySpace : HarmonicSpace :=
  { width := 0, height := 0, center := (0, 0), depth := 0, time := 0,
    harmonics := [], rand := fun _ => 0, randIdx := 0 }

/-! ## Theorems -/

/-- Equation of the fold loop when the guard holds: one halving step. -/
theorem getPrimeRatio_go_of_ge (q : ℚ) (h : 4 ≤ q) :
    getPrimeRatio.go q = getPrimeRatio.go (q / 2) := by
  rw [getPrimeRatio.go, dif_pos h]

/-- Equation of the fold loop when the guard fails: the value is returned. -/
theorem getPrimeRatio_go_of_lt (q : ℚ) (h : ¬ 4 ≤ q) :
    getPrimeRatio.go q = q := by
  rw [getPrimeRatio.go, dif_neg h]

/-- The fold loop maps [1, ∞) into [1, 4). -/
theorem getPrimeRatio_go_bounds (q : ℚ) (hq : 1 ≤ q) :
    1 ≤ getPrimeRatio.go q ∧ getPrimeRatio.go q < 4 := by
  induction q using getPrimeRatio.go.induct with
  | case1 q h ih =>
    rw [getPrimeRatio_go_of_ge q h]
    exact ih (by linarith)
  | case2 q h =>
    rw [getPrimeRatio_go_of_lt q h]
    exact ⟨hq, lt_of_not_le h⟩

/-- C5: for every positive integer n, the fold (`getPrimeRatio`)
terminates with a value in [1, 4), and folding an even n at least 4 gives
the same value as folding n / 2. Termination is definitional: the loop is
a total function of its argument. -/
theorem getPrimeRatio_bounds_and_halving (n : ℕ) (hn : 0 < n) :
    1 ≤ getPrimeRatio (n : ℚ) ∧ getPrimeRatio (n : ℚ) < 4 ∧
      (2 ∣ n → 4 ≤ n → getPrimeRatio (n : ℚ) = getPrimeRatio ((n / 2 : ℕ) : ℚ)) := by
  have h1 : (1 : ℚ) ≤ (n : ℚ) := by exact_mod_cast hn
  obtain ⟨ha, hb⟩ := getPrimeRatio_go_bounds (n : ℚ) h1
  refine ⟨ha, hb, fun hdvd h4 => ?_⟩
  have hcast : ((n / 2 : ℕ) : ℚ) = (n : ℚ) / 2 := by
    rcases hdvd with ⟨k, hk⟩
    subst hk
    push_cast [Nat.mul_div_cancel_left k (by norm_num : 0 < 2)]
    ring
  have h4q : (4 : ℚ) ≤ (n : ℚ) := by exact_mod_cast h4
  show getPrimeRatio.go (n : ℚ) = getPrimeRatio.go ((n / 2 : ℕ) : ℚ)
  rw [getPrimeRatio_go_of_ge _ h4q, hcast]

/-- Witness for C5 at n = 6: fold 6 lands in [1, 4) and agrees with fold 3. -/
theorem getPrimeRatio_bounds_and_halving_witness :
    0 < 6 ∧
      (1 ≤ getPrimeRatio ((6 : ℕ) : ℚ) ∧ getPrimeRatio ((6 : ℕ) : ℚ) < 4 ∧
        (2 ∣ 6 → 4 ≤ 6 →
          getPrimeRatio ((6 : ℕ) : ℚ) = getPrimeRatio ((6 / 2 : ℕ) : ℚ))) :=
  ⟨by norm_num, getPrimeRatio_bounds_and_halving 6 (by norm_num)⟩

/-- Folding 7 gives 7/2, not the 7/4 the documentation claims. -/
theorem getPrimeRatio_seven : getPrimeRatio 7 = 7 / 2 := by
  show getPrimeRatio.go 7 = 7 / 2
  rw [getPrimeRatio_go_of_ge 7 (by norm_num), getPrimeRatio_go_of_lt _ (by norm_num)]

/-- Folding 11 gives 11/4, not the 11/8 the documentation claims. -/
theorem getPrimeRatio_eleven : getPrimeRatio 11 = 11 / 4 := by
  show getPrimeRatio.go 11 = 11 / 4
  rw [getPrimeRatio_go_of_ge 11 (by norm_num), getPrimeRatio_go_of_ge _ (by norm_num),
    getPrimeRatio_go_of_lt _ (by norm_num)]
  norm_num

/-- C3: with fundamental 110, the code folds prime 7 to ratio 7/2 = 3.5
(not 1.75) and creates its voice at 385 Hz (not 192.5 Hz); it folds prime
11 to 11/4 = 2.75 (not 1.375) and creates its voice at 302.5 Hz (not
151.25 Hz). The `while (ratio >= 4)` loop stops at the first value below
4, one octave above what the documentation's [1, 2) table expects. -/
theorem primeRatio_seven_eleven_values :
    getPrimeRatio 7 = 7 / 2 ∧
    (HarmonicEngine.initial.createVoice "prime_7" (getPrimeRatio 7)).1.oscillator.frequency = 385 ∧
    getPrimeRatio 11 = 11 / 4 ∧
    (HarmonicEngine.initial.createVoice "prime_11" (getPrimeRatio 11)).1.oscillator.frequency = 605 / 2 ∧
    getPrimeRatio 7 ≠ 7 / 4 ∧ (385 : ℚ) ≠ 192.5 ∧
    getPrimeRatio 11 ≠ 11 / 8 ∧ (605 / 2 : ℚ) ≠ 151.25 := by
  refine ⟨getPrimeRatio_seven, ?_, getPrimeRatio_eleven, ?_, ?_, by norm_num, ?_, by norm_num⟩
  · simp [HarmonicEngine.createVoice, HarmonicEngine.initial, getPrimeRatio_seven]
    norm_num
  · simp [HarmonicEngine.createVoice, HarmonicEngine.initial, getPrimeRatio_eleven]
    norm_num
  · rw [getPrimeRatio_seven]; norm_num
  · rw [getPrimeRatio_eleven]; norm_num

/-- After `createVoice`, the map holds the returned voice under the id. -/
theorem createVoice_lookup (e : HarmonicEngine) (id : String) (r : ℚ) :
    (e.createVoice id r).2.voices.lookup id = some (e.createVoice id r).1 := by
  unfold HarmonicEngine.createVoice
  cases h : e.voices.lookup id with
  | some v => simp [h]
  | none => simp [h, List.lookup]

/-- `createVoice` on an id already in the map returns that voice and
leaves the state untouched. -/
theorem createVoice_of_lookup_some (e : HarmonicEngine) (id : String) (r : ℚ)
    (v : Voice) (h : e.voices.lookup id = some v) :
    e.createVoice id r = (v, e) := by
  unfold HarmonicEngine.createVoice
  rw [h]

/-- C8: a second `createVoice` for the same id returns the very voice the
first call produced and leaves the whole engine state — the voice map, the
next node serial, hence every oscillator, gain and ratio — unchanged. -/
theorem createVoice_twice_idempotent (e : HarmonicEngine) (id : String)
    (r1 r2 : ℚ) :
    (e.createVoice id r1).2.createVoice id r2
      = ((e.createVoice id r1).1, (e.createVoice id r1).2) :=
  createVoice_of_lookup_some _ id r2 _ (createVoice_lookup e id r1)

/-- C2: `releaseVoice` then `createVoice` for the same id before the timer
fires. The second `createVoice` finds the id still mapped and returns the
fading voice; when the stale decommission fires it stops that voice's
oscillator and deletes the id, so the voice the caller just obtained is
destroyed and gone from the active set — the opposite of what the spec
requires. -/
theorem staleDecommission_destroys_recreated_voice :
    ((((HarmonicEngine.initial.createVoice "prime_7" (7/2)).2.releaseVoice "prime_7"
        (1/2)).createVoice "prime_7" (7/2)).2.voices.lookup "prime_7" ≠ none) ∧
    ((((HarmonicEngine.initial.createVoice "prime_7" (7/2)).2.releaseVoice "prime_7"
        (1/2)).createVoice "prime_7"
        (7/2)).2.fireNextDecommission.voices.lookup "prime_7" = none) ∧
    ((((HarmonicEngine.initial.createVoice "prime_7" (7/2)).2.releaseVoice "prime_7"
        (1/2)).createVoice "prime_7" (7/2)).1.oscillator.serial ∈
      (((HarmonicEngine.initial.createVoice "prime_7" (7/2)).2.releaseVoice "prime_7"
        (1/2)).createVoice "prime_7"
        (7/2)).2.fireNextDecommission.stoppedOscillators) := by
  decide

/-- `setHarmonicAmplitude`'s list traversal is the identity when no
harmonic carries the id. -/
theorem setAmplitudeInList_of_not_mem (id : String) (a : ℝ) :
    ∀ l : List Harmonic, (∀ h ∈ l, h.id ≠ id) → setAmplitudeInList id a l = l := by
  intro l
  induction l with
  | nil => intro _; rfl
  | cons h t ih =>
    intro hl
    rw [setAmplitudeInList, if_neg (hl h (by simp)), ih (fun x hx => hl x (by simp [hx]))]

/-- C9: an id with no matching harmonic or voice makes
`setHarmonicAmplitude`, `setVoiceAmplitude` and `releaseVoice` silent
no-ops: no failure, and the spatial and engine states are left exactly as
they were. -/
theorem unknownId_noop (s : HarmonicSpace) (e : HarmonicEngine) (id : String)
    (amplitude : ℝ) (amp fadeTime : ℚ)
    (hs : ∀ h ∈ s.harmonics, h.id ≠ id)
    (he : e.voices.lookup id = none) :
    s.setHarmonicAmplitude id amplitude = s ∧
    e.setVoiceAmplitude id amp = e ∧
    e.releaseVoice id fadeTime = e := by
  refine ⟨?_, ?_, ?_⟩
  · unfold HarmonicSpace.setHarmonicAmplitude
    rw [setAmplitudeInList_of_not_mem id amplitude s.harmonics hs]
  · unfold HarmonicEngine.setVoiceAmplitude
    rw [he]
  · unfold HarmonicEngine.releaseVoice
    rw [he]

/-- Witness for C9 at a concrete state and the unknown id "prime_999". -/
theorem unknownId_noop_witness :
    (∀ h ∈ emptySpace.harmonics, h.id ≠ "prime_999") ∧
    HarmonicEngine.initial.voices.lookup "prime_999" = none ∧
    emptySpace.setHarmonicAmplitude "prime_999" (1/2) = emptySpace ∧
    HarmonicEngine.initial.setVoiceAmplitude "prime_999" (1/2) = HarmonicEngine.initial ∧
    HarmonicEngine.initial.releaseVoice "prime_999" (1/2) = HarmonicEngine.initial := by
  have h1 : ∀ h ∈ emptySpace.harmonics, h.id ≠ "prime_999" := by
    simp [emptySpace]
  have h2 : HarmonicEngine.initial.voices.lookup "prime_999" = none := rfl
  have main :=
    unknownId_noop emptySpace HarmonicEngine.initial "prime_999" (1/2) (1/2) (1/2) h1 h2
  exact ⟨h1, h2, main.1, main.2.1, main.2.2⟩

/-- C1 counterexample: on the freshly constructed space,
`setHarmonicAmplitude("prime_2", 5)` stores 5 verbatim — the stored
amplitude escapes [0, 0.8], so the operation does not clamp. -/
theorem setHarmonicAmplitude_no_clamp_counterexample :
    (((HarmonicSpace.init 1000 800 (fun _ => 0)).setHarmonicAmplitude "prime_2" 5).getHarmonic
        "prime_2").map Harmonic.amplitude = some 5 ∧ ¬ ((5 : ℝ) ≤ 0.8) :=
  ⟨rfl, by norm_num⟩

/-- Every amplitude produced by `setHarmonicAmplitude`'s traversal is
either the written value or one already in the list. -/
theorem setAmplitudeInList_amplitude_bounds (id : String) (a : ℝ)
    (lo hi : ℝ) (ha : lo ≤ a ∧ a ≤ hi) :
    ∀ l : List Harmonic, (∀ h ∈ l, lo ≤ h.amplitude ∧ h.amplitude ≤ hi) →
      ∀ h ∈ setAmplitudeInList id a l, lo ≤ h.amplitude ∧ h.amplitude ≤ hi := by
  intro l
  induction l with
  | nil => intro _ h hmem; cases hmem
  | cons hd t ih =>
    intro hl h hmem
    rw [setAmplitudeInList] at hmem
    by_cases hid : hd.id = id
    · rw [if_pos hid] at hmem
      rcases List.mem_cons.mp hmem with heq | ht
      · subst heq; exact ha
      · exact hl h (List.mem_cons_of_mem hd ht)
    · rw [if_neg hid] at hmem
      rcases List.mem_cons.mp hmem with heq | ht
      · subst heq; exact hl h (List.mem_cons_self _ _)
      · exact ih (fun x hx => hl x (List.mem_cons_of_mem _ hx)) h ht

/-- C1 (amended): `setHarmonicAmplitude` stores its input without
clamping, so the [0, 0.8] invariant holds exactly when every written value
lies in [0, 0.8]; the values the application actually writes — computed by
`updateHarmonicsFromCursor` as `min(0.8, influence * baseIntensity *
(1 / sqrt(prime / 2)))` with nonnegative influence — do lie in [0, 0.8]. -/
theorem amplitude_invariant_amended (s : HarmonicSpace) (id : String) (a : ℝ)
    (hs : ∀ h ∈ s.harmonics, 0 ≤ h.amplitude ∧ h.amplitude ≤ 0.8)
    (ha : 0 ≤ a ∧ a ≤ 0.8) (influence : ℝ) (hinf : 0 ≤ influence)
    (isMouseDown : Bool) (prime : ℕ) :
    (∀ h ∈ (s.setHarmonicAmplitude id a).harmonics,
        0 ≤ h.amplitude ∧ h.amplitude ≤ 0.8) ∧
    (0 ≤ cursorAmplitude influence isMouseDown prime ∧
      cursorAmplitude influence isMouseDown prime ≤ 0.8) := by
  constructor
  · exact setAmplitudeInList_amplitude_bounds id a 0 0.8 ha s.harmonics hs
  · unfold cursorAmplitude
    have hbase : (0 : ℝ) ≤ if isMouseDown then 0.6 else 0.25 := by
      cases isMouseDown <;> norm_num
    have hx : (0 : ℝ) ≤ influence * (if isMouseDown then 0.6 else 0.25) *
        (1 / Real.sqrt ((prime : ℝ) / 2)) := by
      apply mul_nonneg (mul_nonneg hinf hbase)
      positivity
    exact ⟨le_min (by norm_num) hx, min_le_left _ _⟩

/-- Every harmonic produced by `generateHarmonics` starts with amplitude 0
and glow 0. -/
theorem generateHarmonics_amplitude_glow (w h : ℝ) (r : ℕ → ℝ) (b : ℕ) :
    ∀ hm ∈ generateHarmonics w h r b, hm.amplitude = 0 ∧ hm.glow = 0 := by
  intro hm hmem
  rw [generateHarmonics, List.mem_map] at hmem
  obtain ⟨i, -, rfl⟩ := hmem
  exact ⟨rfl, rfl⟩

/-- Witness for C1 (amended) on the freshly constructed space, writing
0.5, with influence 0.5, mouse down, prime 7. -/
theorem amplitude_invariant_amended_witness :
    (∀ h ∈ (HarmonicSpace.init 1000 800 (fun _ => 0)).harmonics,
        0 ≤ h.amplitude ∧ h.amplitude ≤ 0.8) ∧
    ((0 : ℝ) ≤ 0.5 ∧ (0.5 : ℝ) ≤ 0.8) ∧ ((0 : ℝ) ≤ 0.5) ∧
    ((∀ h ∈ ((HarmonicSpace.init 1000 800 (fun _ => 0)).setHarmonicAmplitude "prime_2"
          0.5).harmonics, 0 ≤ h.amplitude ∧ h.amplitude ≤ 0.8) ∧
      (0 ≤ cursorAmplitude 0.5 true 7 ∧ cursorAmplitude 0.5 true 7 ≤ 0.8)) := by
  have hs : ∀ h ∈ (HarmonicSpace.init 1000 800 (fun _ => 0)).harmonics,
      0 ≤ h.amplitude ∧ h.amplitude ≤ 0.8 := by
    intro h hmem
    have := generateHarmonics_amplitude_glow 1000 800 (fun _ => 0) 0 h hmem
    rw [this.1]
    norm_num
  exact ⟨hs, ⟨by norm_num, by norm_num⟩, by norm_num,
    amplitude_invariant_amended _ "prime_2" 0.5 hs ⟨by norm_num, by norm_num⟩ 0.5
      (by norm_num) true 7⟩

/-- The depth-0 visibility test on the generated `visibilityDepth` values
holds exactly for the first nine prime indices. -/
theorem visibility_condition_zero (i : ℕ) :
    (max 0 (((i : ℚ) - 4) / 15) ≤ 0 + 3/10) ↔ i ≤ 8 := by
  rw [max_le_iff]
  constructor
  · rintro ⟨-, h2⟩
    by_contra hgt
    push_neg at hgt
    have h9 : (9 : ℚ) ≤ (i : ℚ) := by exact_mod_cast hgt
    linarith
  · intro hle
    have h8 : (i : ℚ) ≤ 8 := by exact_mod_cast hle
    exact ⟨by norm_num, by linarith⟩

/-- At depth 0 the visible harmonics of a fresh space are those of the
first nine primes. -/
theorem getVisibleHarmonics_init_primes (w h : ℝ) (r : ℕ → ℝ) :
    (HarmonicSpace.init w h r).getVisibleHarmonics.map Harmonic.prime
      = [2, 3, 5, 7, 11, 13, 17, 19, 23] := by
  show (((List.range PRIMES.length).map (mkHarmonic w h r 0)).filter
      (fun hm => decide (hm.visibilityDepth ≤ 0 + 3/10))).map Harmonic.prime
    = [2, 3, 5, 7, 11, 13, 17, 19, 23]
  rw [List.filter_map, List.map_map]
  have hcong : ∀ x ∈ List.range PRIMES.length,
      ((fun hm : Harmonic => decide (hm.visibilityDepth ≤ 0 + 3/10))
          ∘ mkHarmonic w h r 0) x = decide (x ≤ 8) := by
    intro i _
    simp only [Function.comp_apply, mkHarmonic]
    rw [decide_eq_decide]
    exact visibility_condition_zero i
  rw [List.filter_congr hcong]
  rw [show (List.range PRIMES.length).filter (fun i => decide (i ≤ 8))
      = [0, 1, 2, 3, 4, 5, 6, 7, 8] from by decide]
  simp only [List.map_cons, List.map_nil, Function.comp_apply, mkHarmonic]
  decide

/-- C4 counterexample: at depth 0 the visible set holds the harmonics of
the first nine primes — 13, 17, 19 and 23 included — not only the first
five, because `visibilityDepth = (i - 4) / 15` stays below the 0.3
lookahead up to index 8. -/
theorem visibleAtDepthZero_counterexample :
    (HarmonicSpace.init 1000 800 (fun _ => 0)).getVisibleHarmonics.map Harmonic.prime
        = [2, 3, 5, 7, 11, 13, 17, 19, 23] ∧
    (HarmonicSpace.init 1000 800 (fun _ => 0)).getVisibleHarmonics.map Harmonic.prime
        ≠ [2, 3, 5, 7, 11] := by
  have h9 := getVisibleHarmonics_init_primes 1000 800 (fun _ => 0)
  exact ⟨h9, by rw [h9]; decide⟩

/-- C4 (amended): at depth 0 `getVisibleHarmonics` returns exactly the
harmonics with `visibilityDepth ≤ 0.3`, which are those of the first nine
primes (indices 0–8); and for d1 ≤ d2 every harmonic visible at depth d1
is visible at depth d2. -/
theorem getVisibleHarmonics_depth_zero_amended (w h : ℝ) (r : ℕ → ℝ)
    (s : HarmonicSpace) (d1 d2 : ℚ) (hd : d1 ≤ d2) :
    ((HarmonicSpace.init w h r).getVisibleHarmonics
        = (HarmonicSpace.init w h r).harmonics.filter
            (fun hm => decide (hm.visibilityDepth ≤ 3/10))) ∧
    ((HarmonicSpace.init w h r).getVisibleHarmonics.map Harmonic.prime
        = [2, 3, 5, 7, 11, 13, 17, 19, 23]) ∧
    (∀ hm ∈ (s.setDepth d1).getVisibleHarmonics,
        hm ∈ (s.setDepth d2).getVisibleHarmonics) := by
  refine ⟨?_, getVisibleHarmonics_init_primes w h r, ?_⟩
  · unfold HarmonicSpace.getVisibleHarmonics HarmonicSpace.init
    exact List.filter_congr (fun hm _ => by
      rw [decide_eq_decide]
      constructor <;> intro h1 <;> linarith)
  · intro hm hmem
    unfold HarmonicSpace.getVisibleHarmonics HarmonicSpace.setDepth at hmem ⊢
    rw [List.mem_filter] at hmem ⊢
    refine ⟨hmem.1, ?_⟩
    have h1 := of_decide_eq_true hmem.2
    apply decide_eq_true
    have hmono : max 0 (min 1 d1) ≤ max 0 (min 1 d2) :=
      max_le_max le_rfl (min_le_min le_rfl hd)
    simp only at h1 ⊢
    linarith

/-- Witness for C4 (amended) at a concrete fresh space and depths 0 ≤ 1. -/
theorem getVisibleHarmonics_depth_zero_amended_witness :
    (0 : ℚ) ≤ 1 ∧
    (((HarmonicSpace.init 1000 800 (fun _ => 0)).getVisibleHarmonics
        = (HarmonicSpace.init 1000 800 (fun _ => 0)).harmonics.filter
            (fun hm => decide (hm.visibilityDepth ≤ 3/10))) ∧
      ((HarmonicSpace.init 1000 800 (fun _ => 0)).getVisibleHarmonics.map Harmonic.prime
          = [2, 3, 5, 7, 11, 13, 17, 19, 23]) ∧
      (∀ hm ∈ (emptySpace.setDepth 0).getVisibleHarmonics,
          hm ∈ (emptySpace.setDepth 1).getVisibleHarmonics)) :=
  ⟨by norm_num,
    getVisibleHarmonics_depth_zero_amended 1000 800 (fun _ => 0) emptySpace 0 1
      (by norm_num)⟩

/-- C10: `resize` regenerates the whole harmonic set from the new
dimensions and the fresh random draws — the result does not depend on the
previous harmonics, every regenerated amplitude and glow is 0, and the
animation fields come from the next unconsumed random draws. -/
theorem resize_discards_amplitudes (s : HarmonicSpace) (w h : ℝ) :
    (s.resize w h).harmonics = generateHarmonics w h s.rand s.randIdx ∧
    (∀ hm ∈ (s.resize w h).harmonics, hm.amplitude = 0 ∧ hm.glow = 0) ∧
    (∀ i, (hi : i < (generateHarmonics w h s.rand s.randIdx).length) →
      ((generateHarmonics w h s.rand s.randIdx)[i]).phase
          = s.rand (s.randIdx + 3 * i) * (Real.pi * 2) ∧
      ((generateHarmonics w h s.rand s.randIdx)[i]).wanderAngle
          = s.rand (s.randIdx + 3 * i + 1) * (Real.pi * 2) ∧
      ((generateHarmonics w h s.rand s.randIdx)[i]).wanderSpeed
          = 0.1 + s.rand (s.randIdx + 3 * i + 2) * 0.2) := by
  have hre : (s.resize w h).harmonics = generateHarmonics w h s.rand s.randIdx := rfl
  refine ⟨hre, ?_, ?_⟩
  · rw [hre]
    exact generateHarmonics_amplitude_glow w h s.rand s.randIdx
  · intro i hi
    have hlen : i < PRIMES.length := by
      simpa [generateHarmonics] using hi
    simp [generateHarmonics, mkHarmonic]

/-- The enumeration loop's result does not depend on the fuel: any two
fuels that reach the break agree (the loop is a pure function of its
inputs). -/
theorem getPrimeHarmonicsAux_deterministic (p f maxF : ℚ) :
    ∀ fuel1 fuel2 m l1 l2,
      getPrimeHarmonicsAux p f maxF fuel1 m = some l1 →
      getPrimeHarmonicsAux p f maxF fuel2 m = some l2 → l1 = l2 := by
  intro fuel1
  induction fuel1 with
  | zero =>
    intro fuel2 m l1 l2 h1
    exact absurd h1 (by simp [getPrimeHarmonicsAux])
  | succ k ih =>
    intro fuel2 m l1 l2 h1 h2
    cases fuel2 with
    | zero => exact absurd h2 (by simp [getPrimeHarmonicsAux])
    | succ j =>
      simp only [getPrimeHarmonicsAux] at h1 h2
      split_ifs at h1 h2 with hc
      · rw [← Option.some.inj h1, ← Option.some.inj h2]
      · rcases Option.map_eq_some'.mp h1 with ⟨r1, hr1, hl1⟩
        rcases Option.map_eq_some'.mp h2 with ⟨r2, hr2, hl2⟩
        rw [← hl1, ← hl2, ih j (m * 2) r1 r2 hr1 hr2]

/-- Fuel one beyond the first doubling that pushes the frequency past the
bound suffices for the loop to reach its break. -/
theorem getPrimeHarmonicsAux_terminates (p f maxF : ℚ) :
    ∀ (n : ℕ) (m : ℚ), maxF < f * (p * (m * 2 ^ n)) →
      ∃ l, getPrimeHarmonicsAux p f maxF (n + 1) m = some l := by
  intro n
  induction n with
  | zero =>
    intro m hm
    simp only [pow_zero, mul_one] at hm
    exact ⟨[], by simp only [getPrimeHarmonicsAux]; rw [if_pos hm]⟩
  | succ k ih =>
    intro m hm
    by_cases hc : maxF < f * (p * m)
    · exact ⟨[], by simp only [getPrimeHarmonicsAux]; rw [if_pos hc]⟩
    · have hm2 : maxF < f * (p * (m * 2 * 2 ^ k)) := by
        have harr : m * 2 ^ (k + 1) = m * 2 * 2 ^ k := by ring
        rwa [harr] at hm
      obtain ⟨l, hl⟩ := ih (m * 2) hm2
      refine ⟨⟨p * m, f * (p * m), getPrimeRatio (p * m), m⟩ :: l, ?_⟩
      show (if maxF < f * (p * m) then some []
          else (getPrimeHarmonicsAux p f maxF (k + 1) (m * 2)).map
            (fun rest => ⟨p * m, f * (p * m), getPrimeRatio (p * m), m⟩ :: rest))
        = some (⟨p * m, f * (p * m), getPrimeRatio (p * m), m⟩ :: l)
      rw [if_neg hc, hl]
      rfl

/-- Invariants of the enumeration loop started at multiplier `m`: entries
carry the doubling multipliers `m * 2 ^ i`, their stored frequency is
`fundamental * (prime * multiplier)`, every stored frequency is within the
bound, and the first multiplier past the produced list would exceed it. -/
theorem getPrimeHarmonicsAux_props (p f maxF : ℚ) :
    ∀ fuel (m : ℚ) l, getPrimeHarmonicsAux p f maxF fuel m = some l →
      (∀ i (hi : i < l.length), (l.get ⟨i, hi⟩).multiplier = m * 2 ^ i) ∧
      (∀ e ∈ l, e.frequency = f * (p * e.multiplier)) ∧
      (∀ e ∈ l, e.frequency ≤ maxF) ∧
      maxF < f * (p * (m * 2 ^ l.length)) := by
  intro fuel
  induction fuel with
  | zero =>
    intro m l h
    exact absurd h (by simp [getPrimeHarmonicsAux])
  | succ k ih =>
    intro m l h
    simp only [getPrimeHarmonicsAux] at h
    split_ifs at h with hc
    · obtain rfl : ([] : List PrimeHarmonicEntry) = l := Option.some.inj h
      refine ⟨fun i hi => absurd hi (by simp), fun e he => absurd he (by simp),
        fun e he => absurd he (by simp), ?_⟩
      simpa using hc
    · rcases Option.map_eq_some'.mp h with ⟨rest, hrest, hl⟩
      subst hl
      have hrec := ih (m * 2) rest hrest
      refine ⟨?_, ?_, ?_, ?_⟩
      · intro i hi
        cases i with
        | zero => simp
        | succ j =>
          have hj : j < rest.length := by simpa using hi
          have hmul := hrec.1 j hj
          simp only [List.get_cons_succ]
          rw [show rest.get ⟨j, hj⟩ = rest.get ⟨j, hj⟩ from rfl, hmul]
          ring
      · intro e he
        rcases List.mem_cons.mp he with rfl | hr
        · rfl
        · exact hrec.2.1 e hr
      · intro e he
        rcases List.mem_cons.mp he with rfl | hr
        · exact le_of_not_lt hc
        · exact hrec.2.2.1 e hr
      · have hnext := hrec.2.2.2
        have harr : f * (p * (m * 2 * 2 ^ rest.length))
            = f * (p * (m * 2 ^ (rest.length + 1))) := by ring
        rw [List.length_cons]
        rw [← harr]
        exact hnext

/-- C6: for every prime and positive fundamental, the octave enumeration
(`getPrimeHarmonics`) terminates: some fuel reaches the loop's break, the
result is independent of the fuel (a pure function of the inputs), the
multipliers start at 1 and double each step, frequencies are strictly
increasing and all within `maxFreq`, and the next candidate past the last
element would exceed `maxFreq`. -/
theorem getPrimeHarmonics_enumeration (prime : ℕ) (fundamental maxFreq : ℚ)
    (hp : 1 ≤ prime) (hf : 0 < fundamental) :
    ∃ l, (∃ fuel, getPrimeHarmonics (prime : ℚ) fundamental maxFreq fuel = some l) ∧
      (∀ fuel2 l2, getPrimeHarmonics (prime : ℚ) fundamental maxFreq fuel2 = some l2 →
        l2 = l) ∧
      (∀ i (hi : i < l.length), (l.get ⟨i, hi⟩).multiplier = 2 ^ i) ∧
      l.Pairwise (fun a b => a.frequency < b.frequency) ∧
      (∀ e ∈ l, e.frequency ≤ maxFreq) ∧
      maxFreq < fundamental * ((prime : ℚ) * 2 ^ l.length) := by
  have hp0 : (0 : ℚ) < (prime : ℚ) := by exact_mod_cast hp
  have hfp : 0 < fundamental * (prime : ℚ) := mul_pos hf hp0
  obtain ⟨n, hn⟩ := pow_unbounded_of_one_lt (maxFreq / (fundamental * (prime : ℚ)))
    (by norm_num : (1 : ℚ) < 2)
  have hbig : maxFreq < fundamental * ((prime : ℚ) * (1 * 2 ^ n)) := by
    have hdiv := (div_lt_iff₀ hfp).mp hn
    nlinarith [hdiv]
  obtain ⟨l, hl⟩ := getPrimeHarmonicsAux_terminates (prime : ℚ) fundamental maxFreq n 1 hbig
  have hprops := getPrimeHarmonicsAux_props (prime : ℚ) fundamental maxFreq (n + 1) 1 l hl
  refine ⟨l, ⟨n + 1, hl⟩, ?_, ?_, ?_, hprops.2.2.1, ?_⟩
  · intro fuel2 l2 h2
    exact getPrimeHarmonicsAux_deterministic (prime : ℚ) fundamental maxFreq fuel2 (n + 1)
      1 l2 l h2 hl
  · intro i hi
    have := hprops.1 i hi
    rwa [one_mul] at this
  · rw [List.pairwise_iff_get]
    intro i j hij
    have hmi := hprops.1 i.1 i.2
    have hmj := hprops.1 j.1 j.2
    have hfi := hprops.2.1 (l.get i) (List.get_mem l i.1 i.2)
    have hfj := hprops.2.1 (l.get j) (List.get_mem l j.1 j.2)
    rw [Fin.eta] at hmi hmj
    rw [hfi, hfj, hmi, hmj]
    have hpow : (2 : ℚ) ^ (i : ℕ) < 2 ^ (j : ℕ) :=
      pow_lt_pow_right₀ (by norm_num) hij
    have hlt : (1 : ℚ) * 2 ^ (i : ℕ) < 1 * 2 ^ (j : ℕ) := by linarith
    exact mul_lt_mul_of_pos_left (mul_lt_mul_of_pos_left hlt hp0) hf
  · have := hprops.2.2.2
    rwa [one_mul] at this

/-- Witness for C6 at prime 2, fundamental 110, bound 500. -/
theorem getPrimeHarmonics_enumeration_witness :
    1 ≤ 2 ∧ (0 : ℚ) < 110 ∧
    (∃ l, (∃ fuel, getPrimeHarmonics ((2 : ℕ) : ℚ) 110 500 fuel = some l) ∧
      (∀ fuel2 l2, getPrimeHarmonics ((2 : ℕ) : ℚ) 110 500 fuel2 = some l2 → l2 = l) ∧
      (∀ i (hi : i < l.length), (l.get ⟨i, hi⟩).multiplier = 2 ^ i) ∧
      l.Pairwise (fun a b => a.frequency < b.frequency) ∧
      (∀ e ∈ l, e.frequency ≤ 500) ∧
      (500 : ℚ) < 110 * (((2 : ℕ) : ℚ) * 2 ^ l.length)) :=
  ⟨by norm_num, by norm_num,
    getPrimeHarmonics_enumeration 2 110 500 (by norm_num) (by norm_num)⟩

/-- C7: `getHarmonicsNear` draws only from the visible harmonics; an
entry exists for a harmonic exactly when its Euclidean distance to (x, y)
is strictly below `radius + size`; each entry carries that distance and
`influence = max(0, 1 - distance / (radius + size))`; the result is
sorted nearest-first; and an entry at distance 60 with size 20 under
radius 120 has influence 1 - 60/140 = 4/7. -/
theorem getHarmonicsNear_spec (s : HarmonicSpace) (x y radius : ℝ) :
    (s.getHarmonicsNear x y radius).Pairwise (fun a b => a.distance ≤ b.distance) ∧
    (∀ e ∈ s.getHarmonicsNear x y radius,
      e.harmonic ∈ s.getVisibleHarmonics ∧
      e.distance = Real.sqrt ((e.harmonic.x - x) * (e.harmonic.x - x) +
        (e.harmonic.y - y) * (e.harmonic.y - y)) ∧
      e.distance < radius + e.harmonic.size ∧
      e.influence = max 0 (1 - e.distance / (radius + e.harmonic.size))) ∧
    (∀ hm ∈ s.getVisibleHarmonics,
      Real.sqrt ((hm.x - x) * (hm.x - x) + (hm.y - y) * (hm.y - y)) < radius + hm.size →
      ∃ e ∈ s.getHarmonicsNear x y radius, e.harmonic = hm) ∧
    (∀ e ∈ s.getHarmonicsNear x y radius,
      radius = 120 → e.distance = 60 → e.harmonic.size = 20 → e.influence = 4 / 7) := by
  classical
  unfold HarmonicSpace.getHarmonicsNear
  set g := fun h : Harmonic =>
    let dx := h.x - x
    let dy := h.y - y
    let distance := Real.sqrt (dx * dx + dy * dy)
    if distance < radius + h.size then
      some (⟨h, distance, max 0 (1 - distance / (radius + h.size))⟩ : NearHarmonic)
    else none with hg
  set near := s.getVisibleHarmonics.filterMap g with hnear
  have hperm : (near.mergeSort (fun a b => decide (a.distance ≤ b.distance))).Perm near :=
    List.mergeSort_perm near _
  have hmem_fields : ∀ e ∈ near,
      e.harmonic ∈ s.getVisibleHarmonics ∧
      e.distance = Real.sqrt ((e.harmonic.x - x) * (e.harmonic.x - x) +
        (e.harmonic.y - y) * (e.harmonic.y - y)) ∧
      e.distance < radius + e.harmonic.size ∧
      e.influence = max 0 (1 - e.distance / (radius + e.harmonic.size)) := by
    intro e he
    rw [hnear, List.mem_filterMap] at he
    obtain ⟨hm, hvis, hghm⟩ := he
    rw [hg] at hghm
    simp only at hghm
    by_cases hcond : Real.sqrt ((hm.x - x) * (hm.x - x) + (hm.y - y) * (hm.y - y))
        < radius + hm.size
    · rw [if_pos hcond] at hghm
      obtain rfl := Option.some.inj hghm
      exact ⟨hvis, rfl, hcond, rfl⟩
    · rw [if_neg hcond] at hghm
      exact absurd hghm (by simp)
  refine ⟨?_, ?_, ?_, ?_⟩
  · have hsorted := @List.sorted_mergeSort NearHarmonic
      (fun a b : NearHarmonic => decide (a.distance ≤ b.distance))
      (fun a b c hab hbc =>
        decide_eq_true (le_trans (of_decide_eq_true hab) (of_decide_eq_true hbc)))
      (fun a b => by
        rcases le_total a.distance b.distance with hab | hba
        · simp [hab]
        · simp [hba])
      near
    exact hsorted.imp (fun hab => of_decide_eq_true hab)
  · intro e he
    exact hmem_fields e (hperm.mem_iff.mp he)
  · intro hm hvis hcond
    refine ⟨⟨hm, Real.sqrt ((hm.x - x) * (hm.x - x) + (hm.y - y) * (hm.y - y)),
      max 0 (1 - Real.sqrt ((hm.x - x) * (hm.x - x) + (hm.y - y) * (hm.y - y)) /
        (radius + hm.size))⟩, ?_, rfl⟩
    rw [hperm.mem_iff, hnear, List.mem_filterMap]
    refine ⟨hm, hvis, ?_⟩
    rw [hg]
    simp only
    rw [if_pos hcond]
  · intro e he h120 h60 h20
    have hfields := hmem_fields e (hperm.mem_iff.mp he)
    rw [hfields.2.2.2, h120, h60, h20]
    norm_num

end HarmonicDepths
